import Mathlib

/-!
Shallow embedding of the libtomcrypt DH module (src/pk/dh) and proofs about
its claimed properties.  Big integers are modelled as `Nat`, byte buffers as
`List Nat`, and each C routine becomes a Lean function that follows the
source's control flow.  Collaborators that are not part of this repository
snapshot (the bignum backend, the DER codec, the hash registry) are modelled
by their interfaces; the few helpers of this repository that live outside
the given sources (dh_static.h) are modelled from the specification and say
so in their doc comments.
-/

set_option maxHeartbeats 1000000

namespace LTCDH

/-- Result codes of the library (the subset the DH module uses). -/
inductive Code where
  | CRYPT_OK
  | CRYPT_MEM
  | CRYPT_INVALID_ARG
  | CRYPT_INVALID_PACKET
  | CRYPT_INVALID_KEYSIZE
  | CRYPT_INVALID_HASH
  | CRYPT_BUFFER_OVERFLOW
  | CRYPT_PK_NOT_PRIVATE
  | CRYPT_PK_TYPE_MISMATCH
  | CRYPT_PK_INVALID_TYPE
  | CRYPT_ERROR_READPRNG
  deriving DecidableEq, Repr

open Code

/-- Key-kind constant PK_PUBLIC. -/
def PK_PUBLIC : Nat := 0

/-- Key-kind constant PK_PRIVATE. -/
def PK_PRIVATE : Nat := 1

/-- The DH key object `dh_key`: kind tag, group parameters p and g, private
exponent x, public value y. -/
structure DhKey where
  type : Nat
  prime : Nat
  base : Nat
  x : Nat
  y : Nat
  deriving DecidableEq, Repr

instance {α β : Type} [DecidableEq α] [DecidableEq β] : DecidableEq (Except α β) :=
  fun x y =>
    match x, y with
    | .error a, .error b =>
      if h : a = b then isTrue (by rw [h]) else isFalse fun he => h (Except.error.inj he)
    | .error _, .ok _ => isFalse fun he => Except.noConfusion he
    | .ok _, .error _ => isFalse fun he => Except.noConfusion he
    | .ok a, .ok b =>
      if h : a = b then isTrue (by rw [h]) else isFalse fun he => h (Except.ok.inj he)

/-- Unsigned big-endian byte decoding, `mp_read_unsigned_bin`. -/
def bytesToNat (l : List Nat) : Nat := l.foldl (fun acc b => acc * 256 + b) 0

/-- Fuelled helper for `natToBytes` (the fuel keeps the recursion
structural, so that the kernel can evaluate it). -/
def natToBytesF : Nat → Nat → List Nat
  | 0, _ => []
  | fuel + 1, n => if n = 0 then [] else natToBytesF fuel (n / 256) ++ [n % 256]

/-- Minimal-length unsigned big-endian encoding, `mp_to_unsigned_bin`;
its length is `mp_unsigned_bin_size`. -/
def natToBytes (n : Nat) : List Nat := natToBytesF n n

theorem natToBytesF_eq (fuel n : Nat) (h : n ≤ fuel) :
    bytesToNat (natToBytesF fuel n) = n := by
  induction fuel generalizing n with
  | zero =>
    interval_cases n
    rfl
  | succ f ih =>
    by_cases h0 : n = 0
    · simp [natToBytesF, h0, bytesToNat]
    · have hlt : n / 256 < n := Nat.div_lt_self (Nat.pos_of_ne_zero h0) (by norm_num)
      have hle : n / 256 ≤ f := Nat.le_of_lt_succ (Nat.lt_of_lt_of_le hlt h)
      have := ih (n / 256) hle
      simp only [natToBytesF, h0, if_false, bytesToNat] at this ⊢
      rw [List.foldl_append]
      simp only [List.foldl_cons, List.foldl_nil]
      rw [this]
      omega

theorem bytesToNat_natToBytes (n : Nat) : bytesToNat (natToBytes n) = n :=
  natToBytesF_eq n n (Nat.le_refl n)

/-- Shallow embedding of `dh_shared_secret` (src/src/pk/dh/dh.c, lines
331-388).  The caller's byte buffer `out` and its capacity `outlen`
(the in/out parameter) are passed and returned explicitly; the result is
(return code, buffer contents, out-length value). -/
def dh_shared_secret (private_key public_key : DhKey) (out : List Nat) (outlen : Nat) :
    Code × List Nat × Nat :=
  if private_key.type ≠ PK_PRIVATE then (CRYPT_PK_NOT_PRIVATE, out, outlen)
  else if private_key.prime ≠ public_key.prime then (CRYPT_PK_TYPE_MISMATCH, out, outlen)
  else if private_key.base ≠ public_key.base then (CRYPT_PK_TYPE_MISMATCH, out, outlen)
  else if ¬ public_key.y < private_key.prime - 1 ∨ ¬ 1 < public_key.y then
    (CRYPT_INVALID_ARG, out, outlen)
  else
    let tmp := public_key.y ^ private_key.x % private_key.prime
    let x := (natToBytes tmp).length
    if outlen < x then (CRYPT_BUFFER_OVERFLOW, out, x)
    else (CRYPT_OK, natToBytes tmp ++ out.drop x, x)

theorem pow_mod_comm (g p a b : Nat) : (g ^ b % p) ^ a % p = (g ^ a % p) ^ b % p := by
  rw [← Nat.pow_mod, ← Nat.pow_mod, ← pow_mul, ← pow_mul, Nat.mul_comm]

theorem dh_shared_secret_checks_pass (priv pub : DhKey) (out : List Nat) (cap : Nat)
    (h1 : priv.type = PK_PRIVATE) (h2 : priv.prime = pub.prime) (h3 : priv.base = pub.base)
    (h4 : 1 < pub.y) (h5 : pub.y < priv.prime - 1) :
    dh_shared_secret priv pub out cap =
      (if cap < (natToBytes (pub.y ^ priv.x % priv.prime)).length then
        (Code.CRYPT_BUFFER_OVERFLOW, out, (natToBytes (pub.y ^ priv.x % priv.prime)).length)
      else
        (Code.CRYPT_OK,
          natToBytes (pub.y ^ priv.x % priv.prime) ++
            out.drop (natToBytes (pub.y ^ priv.x % priv.prime)).length,
          (natToBytes (pub.y ^ priv.x % priv.prime)).length)) := by
  unfold dh_shared_secret
  rw [if_neg (by simp [h1]), if_neg (by simp [h2]), if_neg (by simp [h3]),
    if_neg (by omega)]

/-- Claim C1: for two private keys generated in the same group (equal p and
g, valid public values, y = g^x mod p), the two directions of
`dh_shared_secret` return identical results — in particular identical byte
strings of identical length — and succeed whenever the caller's buffer can
hold the secret. -/
theorem dh_shared_secret_commutes (A B : DhKey) (out : List Nat) (cap : Nat)
    (hA : A.type = PK_PRIVATE) (hB : B.type = PK_PRIVATE)
    (hp : A.prime = B.prime) (hg : A.base = B.base)
    (hyA : A.y = A.base ^ A.x % A.prime) (hyB : B.y = B.base ^ B.x % B.prime)
    (hA1 : 1 < A.y) (hA2 : A.y < A.prime - 1)
    (hB1 : 1 < B.y) (hB2 : B.y < B.prime - 1) :
    dh_shared_secret A B out cap = dh_shared_secret B A out cap ∧
    ((natToBytes (B.y ^ A.x % A.prime)).length ≤ cap →
      (dh_shared_secret A B out cap).1 = CRYPT_OK) := by
  have hsec : B.y ^ A.x % A.prime = A.y ^ B.x % B.prime := by
    rw [hyA, hyB, ← hp, ← hg, pow_mod_comm]
  have hB2' : B.y < A.prime - 1 := by rw [hp]; exact hB2
  have hA2' : A.y < B.prime - 1 := by rw [← hp]; exact hA2
  have hL := dh_shared_secret_checks_pass A B out cap hA hp hg hB1 hB2'
  have hR := dh_shared_secret_checks_pass B A out cap hB hp.symm hg.symm hA1 hA2'
  constructor
  · rw [hL, hR, hsec]
  · intro hcap
    rw [hL, if_neg (Nat.not_lt.mpr hcap)]

/-- Claim C1 witness: a concrete pair of keys in the group p = 23, g = 2. -/
theorem dh_shared_secret_commutes_w :
    dh_shared_secret ⟨1, 23, 2, 5, 9⟩ ⟨1, 23, 2, 3, 8⟩ [] 10 =
      dh_shared_secret ⟨1, 23, 2, 3, 8⟩ ⟨1, 23, 2, 5, 9⟩ [] 10 ∧
    (dh_shared_secret ⟨1, 23, 2, 5, 9⟩ ⟨1, 23, 2, 3, 8⟩ [] 10).1 = CRYPT_OK := by
  have h := dh_shared_secret_commutes ⟨1, 23, 2, 5, 9⟩ ⟨1, 23, 2, 3, 8⟩ [] 10
    (by decide) (by decide) (by decide) (by decide) (by decide) (by decide)
    (by decide) (by decide) (by decide) (by decide)
  exact ⟨h.1, h.2 (by decide)⟩

/-- Claim C5: the error cases of `dh_shared_secret` — not-private when the
first key is not private, type-mismatch when p or g differ, invalid-arg when
the peer public value is out of range, and success only when all checks
pass. -/
theorem dh_shared_secret_error_cases (priv pub : DhKey) (out : List Nat) (cap : Nat) :
    (priv.type ≠ PK_PRIVATE →
      (dh_shared_secret priv pub out cap).1 = CRYPT_PK_NOT_PRIVATE)
    ∧ (priv.type = PK_PRIVATE → (priv.prime ≠ pub.prime ∨ priv.base ≠ pub.base) →
      (dh_shared_secret priv pub out cap).1 = CRYPT_PK_TYPE_MISMATCH)
    ∧ (priv.type = PK_PRIVATE → priv.prime = pub.prime → priv.base = pub.base →
      (pub.y ≤ 1 ∨ priv.prime - 1 ≤ pub.y) →
      (dh_shared_secret priv pub out cap).1 = CRYPT_INVALID_ARG)
    ∧ ((dh_shared_secret priv pub out cap).1 = CRYPT_OK →
      priv.type = PK_PRIVATE ∧ priv.prime = pub.prime ∧ priv.base = pub.base ∧
      1 < pub.y ∧ pub.y < priv.prime - 1) := by
  refine ⟨?_, ?_, ?_, ?_⟩
  · intro h
    unfold dh_shared_secret
    rw [if_pos h]
  · intro h hne
    unfold dh_shared_secret
    rw [if_neg (by simp [h])]
    rcases hne with hne | hne
    · rw [if_pos hne]
    · by_cases hp : priv.prime ≠ pub.prime
      · rw [if_pos hp]
      · rw [if_neg hp, if_pos hne]
  · intro h hp hg hy
    unfold dh_shared_secret
    rw [if_neg (by simp [h]), if_neg (by simp [hp]), if_neg (by simp [hg]),
      if_pos (by omega)]
  · intro h
    unfold dh_shared_secret at h
    by_cases h1 : priv.type = PK_PRIVATE
    · rw [if_neg (by simp [h1])] at h
      by_cases h2 : priv.prime = pub.prime
      · rw [if_neg (by simp [h2])] at h
        by_cases h3 : priv.base = pub.base
        · rw [if_neg (by simp [h3])] at h
          by_cases h4 : 1 < pub.y ∧ pub.y < priv.prime - 1
          · exact ⟨h1, h2, h3, h4.1, h4.2⟩
          · rw [if_pos (by omega)] at h
            exact absurd h (by simp)
        · rw [if_pos h3] at h
          exact absurd h (by simp)
      · rw [if_pos h2] at h
        exact absurd h (by simp)
    · rw [if_pos h1] at h
      exact absurd h (by simp)

/-- Claim C5 witness: a peer public value y = p − 1 = 22 is rejected with
invalid-argument. -/
theorem dh_shared_secret_error_cases_w :
    (dh_shared_secret ⟨1, 23, 2, 5, 9⟩ ⟨0, 23, 2, 0, 22⟩ [] 10).1 = CRYPT_INVALID_ARG :=
  (dh_shared_secret_error_cases ⟨1, 23, 2, 5, 9⟩ ⟨0, 23, 2, 0, 22⟩ [] 10).2.2.1
    rfl rfl rfl (Or.inr (by decide))

/-- Claim C10: on every non-OK return of `dh_shared_secret` the caller's
output buffer comes back exactly as it went in; bytes are written only on
the success path. -/
theorem dh_shared_secret_no_write_on_error (priv pub : DhKey) (out : List Nat) (cap : Nat)
    (h : (dh_shared_secret priv pub out cap).1 ≠ CRYPT_OK) :
    (dh_shared_secret priv pub out cap).2.1 = out := by
  simp only [dh_shared_secret] at h ⊢
  split_ifs at h ⊢ <;> first | rfl | exact absurd rfl h

/-- Claim C10 witness: a not-private first key leaves the buffer [7] intact. -/
theorem dh_shared_secret_no_write_on_error_w :
    (dh_shared_secret ⟨0, 23, 2, 0, 9⟩ ⟨0, 23, 2, 0, 9⟩ [7] 5).2.1 = [7] :=
  dh_shared_secret_no_write_on_error ⟨0, 23, 2, 0, 9⟩ ⟨0, 23, 2, 0, 9⟩ [7] 5 (by decide)

/-- `dh_groupsize_to_keysize` (dh.c, lines 56-85): the RFC 3526 §8
"Estimate 2" table mapping group octet size to exponent octet size. -/
def dh_groupsize_to_keysize (groupsize : Nat) : Nat :=
  if groupsize = 0 then 0
  else if groupsize ≤ 192 then 30
  else if groupsize ≤ 256 then 40
  else if groupsize ≤ 384 then 52
  else if groupsize ≤ 512 then 60
  else if groupsize ≤ 768 then 67
  else if groupsize ≤ 1024 then 77
  else 0

/-- Modelled from the spec: `dh_check_pubkey` is declared in the missing
header dh_static.h.  Spec §4.3 accepts a candidate public value iff
y > 1 and y < p − 1, and §4.8 reports failure as invalid-argument. -/
def dh_check_pubkey (key : DhKey) : Code :=
  if 1 < key.y ∧ key.y < key.prime - 1 then CRYPT_OK else CRYPT_INVALID_ARG

/-- The keygen retry loop of `dh_make_key_ex` in dh.c (lines 136-147),
which tests the candidate against an inline p − 1 bignum.  `draws` holds
the successive PRNG reads; `none` means the C loop is still running when
the supplied stream is exhausted. -/
def dh_keygen_loop_v1 (prime base keysize : Nat) :
    List (List Nat) → Option (Except Code DhKey)
  | [] => none
  | buf :: rest =>
    if buf.length ≠ keysize then some (.error CRYPT_ERROR_READPRNG)
    else
      let x := bytesToNat buf
      let y := base ^ x % prime
      if ¬ y < prime - 1 ∨ ¬ 1 < y then dh_keygen_loop_v1 prime base keysize rest
      else some (.ok ⟨PK_PRIVATE, prime, base, x, y⟩)

/-- `dh_make_key_ex` from dh.c (lines 96-160), with the group already
materialized from its hex strings (radix parsing is the bignum
collaborator's). -/
def dh_make_key_ex_v1 (prime base : Nat) (draws : List (List Nat)) :
    Option (Except Code DhKey) :=
  let keysize := dh_groupsize_to_keysize (natToBytes prime).length
  if keysize = 0 then some (.error CRYPT_INVALID_KEYSIZE)
  else dh_keygen_loop_v1 prime base keysize draws

/-- The keygen retry loop of `dh_make_key_internal` in dh_make_key.c
(lines 53-67), which tests the candidate with the `dh_check_pubkey`
helper. -/
def dh_keygen_loop_v2 (prime base keysize : Nat) :
    List (List Nat) → Option (Except Code DhKey)
  | [] => none
  | buf :: rest =>
    if buf.length ≠ keysize then some (.error CRYPT_ERROR_READPRNG)
    else
      let x := bytesToNat buf
      let key : DhKey := ⟨PK_PRIVATE, prime, base, x, base ^ x % prime⟩
      if dh_check_pubkey key = CRYPT_OK then some (.ok key)
      else dh_keygen_loop_v2 prime base keysize rest

/-- `dh_make_key_internal` from dh_make_key.c (lines 14-78): copy the
group bignums, derive the exponent size, then run the retry loop. -/
def dh_make_key_internal (prime base : Nat) (draws : List (List Nat)) :
    Option (Except Code DhKey) :=
  let keysize := dh_groupsize_to_keysize (natToBytes prime).length
  if keysize = 0 then some (.error CRYPT_INVALID_KEYSIZE)
  else dh_keygen_loop_v2 prime base keysize draws

/-- `dh_make_key_ex` from dh_make_key.c (lines 89-105): parse the hex pair
(collaborator; the values are given) and call the internal routine. -/
def dh_make_key_ex_v2 (prime base : Nat) (draws : List (List Nat)) :
    Option (Except Code DhKey) :=
  dh_make_key_internal prime base draws

theorem dh_keygen_loops_eq (prime base keysize : Nat) (draws : List (List Nat)) :
    dh_keygen_loop_v1 prime base keysize draws = dh_keygen_loop_v2 prime base keysize draws := by
  induction draws with
  | nil => rfl
  | cons buf rest ih =>
    simp only [dh_keygen_loop_v1, dh_keygen_loop_v2]
    by_cases hlen : buf.length ≠ keysize
    · rw [if_pos hlen, if_pos hlen]
    · rw [if_neg hlen, if_neg hlen]
      by_cases hy : 1 < base ^ bytesToNat buf % prime ∧
          base ^ bytesToNat buf % prime < prime - 1
      · rw [if_neg (by omega), if_pos (by simp [dh_check_pubkey, hy])]
      · rw [if_pos (by omega), if_neg (by simp [dh_check_pubkey, hy]), ih]

/-- Claim C9: the dh.c revision of the keygen routine (inline p − 1
acceptance test) and the dh_make_key.c revision (`dh_check_pubkey` helper
via the internal routine) agree on every materialized group and every PRNG
byte stream: same result code, and on success the very same key. -/
theorem dh_make_key_revisions_equivalent (prime base : Nat) (draws : List (List Nat)) :
    dh_make_key_ex_v1 prime base draws = dh_make_key_ex_v2 prime base draws := by
  unfold dh_make_key_ex_v1 dh_make_key_ex_v2 dh_make_key_internal
  by_cases h : dh_groupsize_to_keysize (natToBytes prime).length = 0
  · rw [if_pos h, if_pos h]
  · rw [if_neg h, if_neg h, dh_keygen_loops_eq]

theorem dh_keygen_loop_v2_ok {prime base keysize : Nat} {draws : List (List Nat)}
    {k : DhKey} (h : dh_keygen_loop_v2 prime base keysize draws = some (.ok k)) :
    k.type = PK_PRIVATE ∧ k.prime = prime ∧ k.base = base ∧
    k.y = base ^ k.x % prime ∧ 1 < k.y ∧ k.y < prime - 1 := by
  induction draws with
  | nil => simp [dh_keygen_loop_v2] at h
  | cons buf rest ih =>
    simp only [dh_keygen_loop_v2] at h
    by_cases hlen : buf.length ≠ keysize
    · rw [if_pos hlen] at h
      simp at h
    · rw [if_neg hlen] at h
      by_cases hy : dh_check_pubkey ⟨PK_PRIVATE, prime, base, bytesToNat buf,
          base ^ bytesToNat buf % prime⟩ = CRYPT_OK
      · rw [if_pos hy] at h
        simp only [Option.some_inj, Except.ok.injEq] at h
        subst h
        simp only [dh_check_pubkey] at hy
        split_ifs at hy with hrange
        exact ⟨rfl, rfl, rfl, rfl, hrange.1, hrange.2⟩
      · rw [if_neg hy] at h
        exact ih h

theorem dh_make_key_internal_ok {prime base : Nat} {draws : List (List Nat)}
    {k : DhKey} (h : dh_make_key_internal prime base draws = some (.ok k)) :
    k.type = PK_PRIVATE ∧ k.prime = prime ∧ k.base = base ∧
    k.y = base ^ k.x % prime ∧ 1 < k.y ∧ k.y < prime - 1 := by
  simp only [dh_make_key_internal] at h
  split_ifs at h with hks
  · simp at h
  · exact dh_keygen_loop_v2_ok h

/-- `dh_import_raw` (src/src/pk/dh/dh_import_raw.c), with the named group
given as values (hex parsing is the bignum collaborator's).  For a private
key x is read and y derived; for any other kind y is read directly; the
final step checks the public value. -/
def dh_import_raw (in_ : List Nat) (type : Nat) (prime base : Nat) : Except Code DhKey :=
  let key : DhKey :=
    if type = PK_PRIVATE then
      let x := bytesToNat in_
      ⟨PK_PRIVATE, prime, base, x, base ^ x % prime⟩
    else
      ⟨PK_PUBLIC, prime, base, 0, bytesToNat in_⟩
  if dh_check_pubkey key = CRYPT_OK then .ok key else .error CRYPT_INVALID_ARG

theorem dh_import_raw_ok {in_ : List Nat} {type prime base : Nat} {k : DhKey}
    (h : dh_import_raw in_ type prime base = .ok k) :
    k.prime = prime ∧ k.base = base ∧ 1 < k.y ∧ k.y < prime - 1 := by
  simp only [dh_import_raw] at h
  by_cases ht : type = PK_PRIVATE <;> [rw [if_pos ht] at h; rw [if_neg ht] at h] <;>
  · split_ifs at h with hchk
    simp only [Except.ok.injEq] at h
    subst h
    simp only [dh_check_pubkey] at hchk
    split_ifs at hchk with hr
    exact ⟨rfl, rfl, hr.1, hr.2⟩

/-- Packet header size (spec §4.7: magic, section, subtype, version). -/
def PACKET_SIZE : Nat := 4

/-- Section id for DH packets. -/
def PACKET_SECT_DH : Nat := 1

/-- Subsection id for key packets. -/
def PACKET_SUB_KEY : Nat := 0

/-- Modelled from the spec: the fixed packet header bytes written by the
missing `packet_store_header` collaborator — a magic byte, the section,
the subsection, and a version byte, stable across export and import
(§4.7). -/
def packet_header (sect sub : Nat) : List Nat := [145, sect, sub, 0]

/-- Modelled from the spec: `packet_valid_header` checks that the packet
starts with the expected fixed header (§4.7: header mismatch means
invalid packet). -/
def packet_valid_header (in_ : List Nat) (sect sub : Nat) : Bool :=
  in_.take PACKET_SIZE == packet_header sect sub

/-- Modelled from the spec: the INPUT_BIGNUM macro of the missing
dh_static.h reads a 4-byte big-endian length z and then z magnitude bytes,
returning invalid-packet when the buffer is truncated (§4.7). Returns the
value and the next offset. -/
def input_bignum (in_ : List Nat) (y inlen : Nat) : Except Code (Nat × Nat) :=
  if inlen < y + 4 then .error CRYPT_INVALID_PACKET
  else
    let z := bytesToNat ((in_.drop y).take 4)
    if inlen < y + 4 + z then .error CRYPT_INVALID_PACKET
    else .ok (bytesToNat ((in_.drop (y + 4)).take z), y + 4 + z)

/-- `dh_import` (src/src/pk/dh/dh.c, lines 265-321): check length and
header, read the kind byte, then read p, g and either x (recomputing y by
exponentiation) or y directly.  No range check is applied to y. -/
def dh_import (in_ : List Nat) (inlen : Nat) : Except Code DhKey :=
  if inlen < 2 + PACKET_SIZE then .error CRYPT_INVALID_PACKET
  else if packet_valid_header in_ PACKET_SECT_DH PACKET_SUB_KEY = false then
    .error CRYPT_INVALID_PACKET
  else
    let t := in_.getD PACKET_SIZE 0
    if t ≠ PK_PUBLIC ∧ t ≠ PK_PRIVATE then .error CRYPT_PK_TYPE_MISMATCH
    else
      match input_bignum in_ (PACKET_SIZE + 1) inlen with
      | .error e => .error e
      | .ok (p, pos1) =>
        match input_bignum in_ pos1 inlen with
        | .error e => .error e
        | .ok (g, pos2) =>
          if t = PK_PRIVATE then
            match input_bignum in_ pos2 inlen with
            | .error e => .error e
            | .ok (x, _) => .ok ⟨PK_PRIVATE, p, g, x, g ^ x % p⟩
          else
            match input_bignum in_ pos2 inlen with
            | .error e => .error e
            | .ok (yv, _) => .ok ⟨PK_PUBLIC, p, g, 0, yv⟩

/-- Claim C7 counterexample: `dh_import` accepts a well-formed public-key
packet whose public value is y = 0, so packet import does not establish
1 < y < p − 1. -/
theorem dh_import_accepts_out_of_range_y :
    dh_import
      [145, 1, 0, 0, 0, 0, 0, 0, 1, 23, 0, 0, 0, 1, 2, 0, 0, 0, 0] 19 =
      .ok ⟨PK_PUBLIC, 23, 2, 0, 0⟩ ∧ ¬ (1 < (0 : Nat)) := by
  constructor
  · decide
  · decide

/-- Claim C7, amended: keys produced by fresh generation (either revision
of the keygen routine) and by `dh_import_raw` satisfy 1 < y < p − 1;
`dh_import` performs no such validation. -/
theorem dh_constructors_pubkey_range (prime base type : Nat)
    (draws : List (List Nat)) (raw : List Nat) (k1 k2 k3 : DhKey) :
    (dh_make_key_ex_v1 prime base draws = some (.ok k1) →
      1 < k1.y ∧ k1.y < k1.prime - 1)
    ∧ (dh_make_key_ex_v2 prime base draws = some (.ok k2) →
      1 < k2.y ∧ k2.y < k2.prime - 1)
    ∧ (dh_import_raw raw type prime base = .ok k3 →
      1 < k3.y ∧ k3.y < k3.prime - 1) := by
  refine ⟨?_, ?_, ?_⟩
  · intro h
    simp only [dh_make_key_ex_v1] at h
    split_ifs at h with hks
    · simp at h
    · rw [dh_keygen_loops_eq] at h
      have hk := dh_keygen_loop_v2_ok h
      exact ⟨hk.2.2.2.2.1, hk.2.1 ▸ hk.2.2.2.2.2⟩
  · intro h
    have hk := dh_make_key_internal_ok h
    exact ⟨hk.2.2.2.2.1, hk.2.1 ▸ hk.2.2.2.2.2⟩
  · intro h
    have hk := dh_import_raw_ok h
    exact ⟨hk.2.2.1, hk.1 ▸ hk.2.2.2⟩

/-- Claim C7 amended-claim witness: a concrete raw import of y = 9 into the
group p = 23, g = 2. -/
theorem dh_constructors_pubkey_range_w :
    1 < (⟨PK_PUBLIC, 23, 2, 0, 9⟩ : DhKey).y ∧
    (⟨PK_PUBLIC, 23, 2, 0, 9⟩ : DhKey).y < (⟨PK_PUBLIC, 23, 2, 0, 9⟩ : DhKey).prime - 1 :=
  (dh_constructors_pubkey_range 23 2 PK_PUBLIC [] [9]
    ⟨PK_PUBLIC, 23, 2, 0, 9⟩ ⟨PK_PUBLIC, 23, 2, 0, 9⟩ ⟨PK_PUBLIC, 23, 2, 0, 9⟩).2.2
    (by decide)

/-- Bignum collaborator `mp_mulmod`: (a · b) mod n. -/
def mp_mulmod (a b n : Nat) : Nat := a * b % n

/-- Bignum collaborator `mp_submod`: (a − b) mod n, with the result taken
in [0, n) as the backend does. -/
def mp_submod (a b n : Nat) : Nat := (((a : Int) - (b : Int)) % (n : Int)).toNat

/-- Bignum collaborator `mp_invmod`: the modular inverse, failing when the
modulus is trivial or the operand is not invertible. -/
def mp_invmod (a n : Nat) : Except Code Nat :=
  if 1 < n then
    match (List.range n).find? (fun v => a * v % n == 1) with
    | some v => .ok v
    | none => .error CRYPT_INVALID_ARG
  else .error CRYPT_INVALID_ARG

theorem mp_invmod_ok {a n v : Nat} (h : mp_invmod a n = .ok v) :
    1 < n ∧ v < n ∧ a * v % n = 1 := by
  unfold mp_invmod at h
  split_ifs at h with h1
  cases hf : (List.range n).find? (fun v => a * v % n == 1) with
  | none => rw [hf] at h; exact absurd h (by simp)
  | some w =>
    rw [hf] at h
    simp only [Except.ok.injEq] at h
    subst h
    have hmem := List.mem_of_find?_eq_some hf
    have hpw := List.find?_some hf
    exact ⟨h1, List.mem_range.mp hmem, by simpa using hpw⟩

theorem mp_invmod_exists {a n : Nat} (h1 : 1 < n) (hg : Nat.gcd a n = 1) :
    ∃ v, mp_invmod a n = .ok v := by
  have hn0 : (0 : Int) < (n : Int) := by exact_mod_cast Nat.lt_of_lt_of_le Nat.one_pos h1.le
  have hbezout : (1 : Int) = a * Nat.gcdA a n + n * Nat.gcdB a n := by
    have hab := Nat.gcd_eq_gcd_ab a n
    rw [hg] at hab
    exact_mod_cast hab
  have hc0 : 0 ≤ Nat.gcdA a n % (n : Int) := Int.emod_nonneg _ (by omega)
  have hclt : Nat.gcdA a n % (n : Int) < (n : Int) := Int.emod_lt_of_pos _ hn0
  have hmod : ((a : Int) * (Nat.gcdA a n % (n : Int))) % n = 1 := by
    have e1 : ((a : Int) * (Nat.gcdA a n % (n : Int))) % n = ((a : Int) * Nat.gcdA a n) % n := by
      conv_lhs => rw [Int.mul_emod]
      conv_rhs => rw [Int.mul_emod]
      rw [Int.emod_emod_of_dvd _ dvd_rfl]
    have e2 : ((a : Int) * Nat.gcdA a n) % n = 1 := by
      have : (a : Int) * Nat.gcdA a n = 1 + n * (- Nat.gcdB a n) := by
        rw [hbezout]; ring
      rw [this, Int.add_mul_emod_self_left]
      exact Int.emod_eq_of_lt (by norm_num) (by exact_mod_cast h1)
    rw [e1, e2]
  have hcnat : a * (Nat.gcdA a n % (n : Int)).toNat % n = 1 := by
    have hcast : ((a * (Nat.gcdA a n % (n : Int)).toNat % n : Nat) : Int) =
        ((a : Int) * (Nat.gcdA a n % (n : Int))) % n := by
      push_cast [Int.toNat_of_nonneg hc0]
      ring_nf
    have := hcast.trans hmod
    exact_mod_cast this
  have hin : (Nat.gcdA a n % (n : Int)).toNat ∈ List.range n := by
    refine List.mem_range.mpr ?_
    have : ((Nat.gcdA a n % (n : Int)).toNat : Int) < (n : Int) := by
      rwa [Int.toNat_of_nonneg hc0]
    exact_mod_cast this
  have hsome : ((List.range n).find? (fun v => a * v % n == 1)).isSome := by
    rw [List.find?_isSome]
    exact ⟨(Nat.gcdA a n % (n : Int)).toNat, hin, by simp [hcnat]⟩
  obtain ⟨v, hv⟩ := Option.isSome_iff_exists.mp hsome
  refine ⟨v, ?_⟩
  unfold mp_invmod
  rw [if_pos h1, hv]

/-- A DER `SEQUENCE { a INTEGER, b INTEGER }` of a signature, represented
structurally: the DER codec is an external collaborator whose encode and
decode are mutually inverse. -/
structure DhSig where
  a : Nat
  b : Nat
  deriving DecidableEq, Repr

/-- `dh_sign_hash` (src/src/pk/dh/dh_sign_hash.c).  `draw` is the PRNG
read of `keysize` bytes; the emitted DER sequence of the two integers is
represented structurally. -/
def dh_sign_hash (in_ draw : List Nat) (key : DhKey) : Except Code DhSig :=
  if key.type ≠ PK_PRIVATE then .error CRYPT_PK_NOT_PRIVATE
  else
    let keysize := dh_groupsize_to_keysize (natToBytes key.prime).length
    if keysize = 0 then .error CRYPT_PK_INVALID_TYPE
    else if draw.length ≠ keysize then .error CRYPT_ERROR_READPRNG
    else
      let m := bytesToNat in_
      let k := bytesToNat draw
      let p1 := (key.prime - 1) / 2
      let a := key.base ^ k % key.prime
      match mp_invmod k p1 with
      | .error e => .error e
      | .ok kinv =>
        let tmp := mp_mulmod a key.x p1
        let tmp2 := mp_submod m tmp p1
        .ok ⟨a, mp_mulmod kinv tmp2 p1⟩

/-- `dh_verify_hash` (src/src/pk/dh/dh_verify_hash.c), with the decoded
signature pair given structurally: compare y^a · a^b mod p against
g^M mod p and report the outcome in the stat component. -/
def dh_verify_hash (sig : DhSig) (hash : List Nat) (key : DhKey) : Code × Nat :=
  let m := bytesToNat hash
  let gm := key.base ^ m % key.prime
  let tmp := key.y ^ sig.a % key.prime
  let ab := sig.a ^ sig.b % key.prime
  (CRYPT_OK, if ab * tmp % key.prime = gm then 1 else 0)

theorem natCast_mod_modEq (a n : Nat) :
    ((a % n : Nat) : Int) ≡ (a : Int) [ZMOD (n : Int)] := by
  show ((a % n : Nat) : Int) % n = (a : Int) % n
  push_cast
  exact Int.emod_emod_of_dvd _ dvd_rfl

theorem natMod_of_intModEq {p1 e1 e2 : Nat}
    (h : (e1 : Int) ≡ (e2 : Int) [ZMOD (p1 : Int)]) : e1 % p1 = e2 % p1 := by
  have h2 : (e1 : Int) % p1 = (e2 : Int) % p1 := h
  exact_mod_cast h2

/-- The congruence satisfied by the b component computed inside
`dh_sign_hash`: b · k is congruent to M − x·a modulo p1. -/
theorem sign_b_congruence {m k x a p1 kinv : Nat}
    (hkinv : mp_invmod k p1 = .ok kinv) :
    ((mp_mulmod kinv (mp_submod m (mp_mulmod a x p1) p1) p1 : Nat) : Int) * k ≡
      (m : Int) - (x : Int) * (a : Int) [ZMOD (p1 : Int)] := by
  obtain ⟨hp1, hkl, hk1⟩ := mp_invmod_ok hkinv
  have hp1i : (0 : Int) < (p1 : Int) := by exact_mod_cast Nat.lt_of_lt_of_le Nat.one_pos hp1.le
  have hone : (k : Int) * kinv ≡ 1 [ZMOD (p1 : Int)] := by
    have hcast : ((k * kinv % p1 : Nat) : Int) ≡ ((k * kinv : Nat) : Int) [ZMOD (p1 : Int)] :=
      natCast_mod_modEq _ _
    rw [hk1] at hcast
    have := hcast.symm
    push_cast at this
    exact this
  have hsubm : ((mp_submod m (mp_mulmod a x p1) p1 : Nat) : Int) ≡
      (m : Int) - (x : Int) * (a : Int) [ZMOD (p1 : Int)] := by
    unfold mp_submod mp_mulmod
    rw [Int.toNat_of_nonneg (Int.emod_nonneg _ (by omega))]
    have step1 : ((m : Int) - ((a * x % p1 : Nat) : Int)) % p1 ≡
        (m : Int) - ((a * x % p1 : Nat) : Int) [ZMOD (p1 : Int)] :=
      Int.emod_emod_of_dvd _ dvd_rfl
    refine step1.trans ?_
    have step2 : ((a * x % p1 : Nat) : Int) ≡ ((a * x : Nat) : Int) [ZMOD (p1 : Int)] :=
      natCast_mod_modEq _ _
    have step3 := (Int.ModEq.refl (m : Int)).sub step2
    refine step3.trans ?_
    push_cast
    rw [mul_comm (a : Int) (x : Int)]
  have hbm : ((mp_mulmod kinv (mp_submod m (mp_mulmod a x p1) p1) p1 : Nat) : Int) ≡
      (kinv : Int) * ((mp_submod m (mp_mulmod a x p1) p1 : Nat) : Int) [ZMOD (p1 : Int)] := by
    have := natCast_mod_modEq (kinv * mp_submod m (mp_mulmod a x p1) p1) p1
    unfold mp_mulmod
    push_cast at this ⊢
    exact this
  calc ((mp_mulmod kinv (mp_submod m (mp_mulmod a x p1) p1) p1 : Nat) : Int) * k
      ≡ (kinv : Int) * ((mp_submod m (mp_mulmod a x p1) p1 : Nat) : Int) * k
        [ZMOD (p1 : Int)] := hbm.mul_right _
    _ = (k : Int) * kinv * ((mp_submod m (mp_mulmod a x p1) p1 : Nat) : Int) := by ring
    _ ≡ 1 * ((mp_submod m (mp_mulmod a x p1) p1 : Nat) : Int) [ZMOD (p1 : Int)] :=
        hone.mul_right _
    _ = ((mp_submod m (mp_mulmod a x p1) p1 : Nat) : Int) := one_mul _
    _ ≡ (m : Int) - (x : Int) * (a : Int) [ZMOD (p1 : Int)] := hsubm

/-- Claim C6: on a private key with a usable group size and a PRNG draw of
the right length whose value k is invertible modulo p₁ = (p − 1) / 2,
`dh_sign_hash` emits the DER sequence of a = g^k mod p and a value
b < p₁ with b·k ≡ M − x·a (mod p₁) — the reduction is modulo p₁,
not modulo p − 1. -/
theorem dh_sign_hash_formula (in_ draw : List Nat) (key : DhKey)
    (ht : key.type = PK_PRIVATE)
    (hks : dh_groupsize_to_keysize (natToBytes key.prime).length ≠ 0)
    (hd : draw.length = dh_groupsize_to_keysize (natToBytes key.prime).length)
    (hp1 : 1 < (key.prime - 1) / 2)
    (hgcd : Nat.gcd (bytesToNat draw) ((key.prime - 1) / 2) = 1) :
    ∃ b : Nat,
      dh_sign_hash in_ draw key = .ok ⟨key.base ^ bytesToNat draw % key.prime, b⟩ ∧
      b < (key.prime - 1) / 2 ∧
      (b : Int) * (bytesToNat draw : Int) ≡
        (bytesToNat in_ : Int) -
          (key.x : Int) * ((key.base ^ bytesToNat draw % key.prime : Nat) : Int)
        [ZMOD (((key.prime - 1) / 2 : Nat) : Int)] := by
  obtain ⟨kinv, hkinv⟩ := mp_invmod_exists hp1 hgcd
  refine ⟨mp_mulmod kinv
    (mp_submod (bytesToNat in_)
      (mp_mulmod (key.base ^ bytesToNat draw % key.prime) key.x ((key.prime - 1) / 2))
      ((key.prime - 1) / 2)) ((key.prime - 1) / 2), ?_, ?_, ?_⟩
  · simp only [dh_sign_hash]
    rw [if_neg (by simp [ht]), if_neg hks, if_neg (by simp [hd]), hkinv]
  · exact Nat.mod_lt _ (by omega)
  · exact sign_b_congruence hkinv

/-- Claim C6 witness: a concrete signature in the group p = 23, g = 2 with
k = 3 drawn from a 30-byte PRNG read. -/
theorem dh_sign_hash_formula_w :
    ∃ b : Nat,
      dh_sign_hash [1, 2] (List.replicate 29 0 ++ [3]) ⟨1, 23, 2, 5, 9⟩ = .ok ⟨8, b⟩ ∧
      b < 11 ∧
      (b : Int) * 3 ≡ 258 - 5 * 8 [ZMOD (11 : Int)] :=
  dh_sign_hash_formula [1, 2] (List.replicate 29 0 ++ [3]) ⟨1, 23, 2, 5, 9⟩
    rfl (by decide) (by decide) (by decide) (by decide)

/-- Claim C4: for every decoded signature pair (a, b) and every digest,
`dh_verify_hash` returns success, with stat = 1 exactly when
y^a · a^b mod p equals g^M mod p; a mathematical mismatch is stat = 0,
never an error return. -/
theorem dh_verify_hash_no_error (a b : Nat) (hash : List Nat) (key : DhKey) :
    (dh_verify_hash ⟨a, b⟩ hash key).1 = CRYPT_OK ∧
    ((dh_verify_hash ⟨a, b⟩ hash key).2 = 1 ↔
      key.y ^ a * a ^ b % key.prime = key.base ^ bytesToNat hash % key.prime) := by
  refine ⟨rfl, ?_⟩
  have hrw : a ^ b % key.prime * (key.y ^ a % key.prime) % key.prime =
      key.y ^ a * a ^ b % key.prime := by
    rw [Nat.mod_mul_mod, Nat.mul_mod_mod, mul_comm]
  simp only [dh_verify_hash]
  rw [hrw]
  constructor
  · intro h
    by_cases hc : key.y ^ a * a ^ b % key.prime = key.base ^ bytesToNat hash % key.prime
    · exact hc
    · rw [if_neg hc] at h
      exact absurd h (by norm_num)
  · intro h
    rw [if_pos h]

theorem pow_mod_reduce (g p p1 e : Nat) (hg : g ^ p1 % p = 1) :
    g ^ e % p = g ^ (e % p1) % p := by
  conv_lhs => rw [← Nat.div_add_mod e p1, pow_add, pow_mul]
  rw [Nat.mul_mod, Nat.pow_mod, hg, one_pow, Nat.mod_mul_mod, one_mul,
    Nat.mod_mod_of_dvd _ dvd_rfl]

/-- Claim C3: verifying a signature produced by `dh_sign_hash` over the
same digest with the matching public key succeeds with stat = 1, for any
key pair with y = g^x mod p in a group whose generator satisfies
g^((p−1)/2) mod p = 1 (the prime-order-subgroup property the test suite
checks for every catalog group). -/
theorem dh_sign_then_verify (in_ draw : List Nat) (key pub : DhKey) (sig : DhSig)
    (hpp : pub.prime = key.prime) (hpg : pub.base = key.base) (hpy : pub.y = key.y)
    (hy : key.y = key.base ^ key.x % key.prime)
    (hsub : key.base ^ ((key.prime - 1) / 2) % key.prime = 1)
    (hsig : dh_sign_hash in_ draw key = .ok sig) :
    dh_verify_hash sig in_ pub = (CRYPT_OK, 1) := by
  simp only [dh_sign_hash] at hsig
  split_ifs at hsig with h1 h2 h3
  cases hkinv : mp_invmod (bytesToNat draw) ((key.prime - 1) / 2) with
  | error e => rw [hkinv] at hsig; exact absurd hsig (by simp)
  | ok kinv =>
    rw [hkinv] at hsig
    simp only [Except.ok.injEq] at hsig
    subst hsig
    have hcong := sign_b_congruence (m := bytesToNat in_) (x := key.x)
      (a := key.base ^ bytesToNat draw % key.prime) hkinv
    set p := key.prime
    set g := key.base
    set k := bytesToNat draw
    set m := bytesToNat in_
    set p1 := (key.prime - 1) / 2
    set a := g ^ k % p
    set b := mp_mulmod kinv (mp_submod m (mp_mulmod a key.x p1) p1) p1
    have hexp : (k * b + key.x * a) % p1 = m % p1 := by
      refine natMod_of_intModEq ?_
      have step := (hcong.mul_right 1).add_right ((key.x : Int) * (a : Int))
      have step2 : (b : Int) * (k : Int) * 1 + (key.x : Int) * (a : Int) =
          (b : Int) * (k : Int) + (key.x : Int) * (a : Int) := by ring
      rw [step2] at step
      have step3 : ((m : Int) - (key.x : Int) * (a : Int)) * 1 +
          (key.x : Int) * (a : Int) = (m : Int) := by ring
      rw [step3] at step
      have step4 : ((k * b + key.x * a : Nat) : Int) =
          (b : Int) * (k : Int) + (key.x : Int) * (a : Int) := by
        push_cast
        ring
      rw [step4]
      exact step
    have hv : a ^ b % p * (pub.y ^ a % p) % p = g ^ m % p := by
      rw [hpy, hy]
      calc a ^ b % p * ((g ^ key.x % p) ^ a % p) % p
          = (g ^ k % p) ^ b % p * ((g ^ key.x % p) ^ a % p) % p := rfl
        _ = g ^ (k * b) % p * (g ^ (key.x * a) % p) % p := by
            rw [← Nat.pow_mod, ← Nat.pow_mod, ← pow_mul, ← pow_mul]
        _ = g ^ (k * b) * g ^ (key.x * a) % p := by
            rw [Nat.mod_mul_mod, Nat.mul_mod_mod]
        _ = g ^ (k * b + key.x * a) % p := by rw [pow_add]
        _ = g ^ ((k * b + key.x * a) % p1) % p := pow_mod_reduce g p p1 _ hsub
        _ = g ^ (m % p1) % p := by rw [hexp]
        _ = g ^ m % p := (pow_mod_reduce g p p1 m hsub).symm
    simp only [dh_verify_hash]
    rw [hpp, hpg]
    rw [if_pos hv]

/-- Claim C3 witness: the concrete signature (8, 3) over the digest [1, 2]
verifies with the matching public key in the group p = 23, g = 2. -/
theorem dh_sign_then_verify_w :
    dh_verify_hash ⟨8, 3⟩ [1, 2] ⟨0, 23, 2, 0, 9⟩ = (CRYPT_OK, 1) :=
  dh_sign_then_verify [1, 2] (List.replicate 29 0 ++ [3]) ⟨1, 23, 2, 5, 9⟩
    ⟨0, 23, 2, 0, 9⟩ ⟨8, 3⟩ rfl rfl rfl (by decide) (by decide) (by decide)

/-- Case analysis on an `Except Code` result, used to keep error
propagation rewritable in proofs. -/
def exceptCase {α β : Type} (x : Except Code α) (f : Code → β) (g : α → β) : β :=
  match x with
  | .error e => f e
  | .ok a => g a

theorem exceptCase_error {α β : Type} (e : Code) (f : Code → β) (g : α → β) :
    exceptCase (.error e) f g = f e := rfl

theorem exceptCase_ok {α β : Type} (a : α) (f : Code → β) (g : α → β) :
    exceptCase (.ok a) f g = g a := rfl

/-- A registered hash function (the hash registry is an external
collaborator): digest size, digest function, OID, and the registry's
guarantee that a digest has `hashsize` bytes. -/
structure Hash where
  hashsize : Nat
  digest : List Nat → List Nat
  OID : Nat
  hlen : ∀ m, (digest m).length = hashsize

/-- The DER `SEQUENCE { hashOID OID, y_E OCTET STRING, C OCTET STRING }`
of a DH-ES cryptogram, represented structurally: the DER codec is an
external collaborator whose encode and decode are mutually inverse. -/
structure EncBlob where
  oid : Nat
  y_pub : List Nat
  c : List Nat
  deriving DecidableEq, Repr

/-- Modelled from the spec: the DH_BUF_SIZE scratch-buffer size constant of
the missing dh_static.h header. -/
def DH_BUF_SIZE : Nat := 1200

/-- `dh_encrypt_key` (src/src/pk/dh/dh_encrypt_key.c).  `draws` feeds the
ephemeral keygen; `none` means that keygen never returned.  The raw export
of the ephemeral public value (`dh_export_raw`, outside src/) is minimal
unsigned big-endian per spec §6, and it fits because the hex-size guard
bounds the prime at DH_BUF_SIZE/2 bytes. -/
def dh_encrypt_key (in_ : List Nat) (draws : List (List Nat)) (hash : Hash) (key : DhKey) :
    Option (Except Code EncBlob) :=
  if hash.hashsize < in_.length then some (.error CRYPT_INVALID_HASH)
  else if DH_BUF_SIZE < 2 * (natToBytes key.prime).length + 1 ∨
      DH_BUF_SIZE < 2 * (natToBytes key.base).length + 1 then some (.error CRYPT_MEM)
  else
    (dh_make_key_ex_v2 key.prime key.base draws).elim none fun res =>
      exceptCase res (fun e => some (.error e)) fun pubkey =>
        let r := dh_shared_secret pubkey key (List.replicate DH_BUF_SIZE 0) DH_BUF_SIZE
        if r.1 ≠ CRYPT_OK then some (.error r.1)
        else
          let skey := hash.digest (r.2.1.take r.2.2)
          some (.ok ⟨hash.OID, natToBytes pubkey.y,
            List.zipWith (fun s i => s ^^^ i) skey in_⟩)

/-- `dh_decrypt_key` (src/src/pk/dh/dh_decrypt_key.c): resolve the hash by
OID in the registry, import the ephemeral public value against the
recipient's group, recompute the shared secret and its digest, check sizes,
and XOR the ciphertext with the digest into the caller's buffer. -/
def dh_decrypt_key (blob : EncBlob) (out : List Nat) (outlen : Nat)
    (registry : Nat → Option Hash) (key : DhKey) : Code × List Nat × Nat :=
  if key.type ≠ PK_PRIVATE then (CRYPT_PK_NOT_PRIVATE, out, outlen)
  else
    (registry blob.oid).elim (CRYPT_INVALID_PACKET, out, outlen) fun hash =>
      exceptCase (dh_import_raw blob.y_pub PK_PUBLIC key.prime key.base)
        (fun e => (e, out, outlen)) fun pubkey =>
        let r := dh_shared_secret key pubkey (List.replicate DH_BUF_SIZE 0) DH_BUF_SIZE
        if r.1 ≠ CRYPT_OK then (r.1, out, outlen)
        else
          let d := hash.digest (r.2.1.take r.2.2)
          if d.length < blob.c.length then (CRYPT_INVALID_PACKET, out, outlen)
          else if outlen < blob.c.length then (CRYPT_BUFFER_OVERFLOW, out, blob.c.length)
          else
            (CRYPT_OK,
              List.zipWith (fun cb db => cb ^^^ db) blob.c d ++ out.drop blob.c.length,
              blob.c.length)

theorem zipWith_xor_cancel (D P : List Nat) (h : P.length ≤ D.length) :
    List.zipWith (fun cb db => cb ^^^ db) (List.zipWith (fun s i => s ^^^ i) D P) D = P := by
  induction D generalizing P with
  | nil =>
    cases P with
    | nil => rfl
    | cons p ps => simp at h
  | cons d ds ih =>
    cases P with
    | nil => rfl
    | cons p ps =>
      simp only [List.zipWith_cons_cons]
      have hh : (d ^^^ p) ^^^ d = p := by
        rw [Nat.xor_comm d p, Nat.xor_assoc, Nat.xor_self, Nat.xor_zero]
      rw [hh, ih ps (by simpa using h)]

theorem dh_shared_secret_ok_elim {priv pub : DhKey} {out : List Nat} {cap : Nat}
    (h : (dh_shared_secret priv pub out cap).1 = CRYPT_OK) :
    priv.type = PK_PRIVATE ∧ priv.prime = pub.prime ∧ priv.base = pub.base ∧
    1 < pub.y ∧ pub.y < priv.prime - 1 ∧
    (natToBytes (pub.y ^ priv.x % priv.prime)).length ≤ cap := by
  simp only [dh_shared_secret] at h
  split_ifs at h with h1 h2 h3 h4 h5
  exact ⟨not_not.mp h1, not_not.mp h2, not_not.mp h3, by omega, by omega,
    Nat.not_lt.mp h5⟩

/-- Claim C2: decrypting an encryption of a plaintext with |P| not above
the hash's digest size, under the matching private key, returns the
plaintext with output length |P|. -/
theorem dh_encrypt_decrypt_roundtrip
    (in_ : List Nat) (draws : List (List Nat)) (hash : Hash)
    (registry : Nat → Option Hash) (priv pub : DhKey) (blob : EncBlob)
    (out : List Nat) (cap : Nat)
    (hpriv : priv.type = PK_PRIVATE)
    (hpp : pub.prime = priv.prime) (hpg : pub.base = priv.base) (hpy : pub.y = priv.y)
    (hy : priv.y = priv.base ^ priv.x % priv.prime)
    (hreg : registry hash.OID = some hash)
    (hcap : in_.length ≤ cap)
    (henc : dh_encrypt_key in_ draws hash pub = some (.ok blob)) :
    dh_decrypt_key blob out cap registry priv =
      (CRYPT_OK, in_ ++ out.drop in_.length, in_.length) := by
  simp only [dh_encrypt_key] at henc
  split_ifs at henc with hh1 hh2
  · exact absurd henc (by simp)
  · exact absurd henc (by simp)
  cases hkg : dh_make_key_ex_v2 pub.prime pub.base draws with
  | none => rw [hkg] at henc; exact absurd henc (by simp)
  | some res =>
    cases res with
    | error e =>
      rw [hkg, Option.elim_some, exceptCase_error] at henc
      exact absurd henc (by simp)
    | ok eph =>
      rw [hkg, Option.elim_some, exceptCase_ok] at henc
      split_ifs at henc with hrne
      · exact absurd henc (by simp)
      simp only [Option.some_inj, Except.ok.injEq] at henc
      subst henc
      obtain ⟨hkt, hkp, hkb, hky, hky1, hky2⟩ :=
        dh_make_key_internal_ok
          (show dh_make_key_internal pub.prime pub.base draws = some (.ok eph) from hkg)
      have hrok : (dh_shared_secret eph pub
          (List.replicate DH_BUF_SIZE 0) DH_BUF_SIZE).1 = CRYPT_OK := not_not.mp hrne
      obtain ⟨-, hcp, hcg, hpy1, hpy2, hlen⟩ := dh_shared_secret_ok_elim hrok
      have hrval := dh_shared_secret_checks_pass eph pub
        (List.replicate DH_BUF_SIZE 0) DH_BUF_SIZE hkt hcp hcg hpy1 hpy2
      rw [if_neg (Nat.not_lt.mpr hlen)] at hrval
      have htake : ((dh_shared_secret eph pub (List.replicate DH_BUF_SIZE 0)
            DH_BUF_SIZE).2.1.take
          (dh_shared_secret eph pub (List.replicate DH_BUF_SIZE 0) DH_BUF_SIZE).2.2) =
          natToBytes (pub.y ^ eph.x % eph.prime) := by
        rw [hrval]
        exact List.take_left _ _
      rw [htake]
      have hsecEq : eph.y ^ priv.x % priv.prime = pub.y ^ eph.x % eph.prime := by
        rw [hky, hkp, hpp, hpg, pow_mod_comm, ← hy, ← hpy]
      have himp : dh_import_raw (natToBytes eph.y) PK_PUBLIC priv.prime priv.base =
          .ok ⟨PK_PUBLIC, priv.prime, priv.base, 0, eph.y⟩ := by
        simp only [dh_import_raw]
        rw [if_neg (show ¬ (PK_PUBLIC = PK_PRIVATE) from by decide), bytesToNat_natToBytes]
        have hchk : dh_check_pubkey ⟨PK_PUBLIC, priv.prime, priv.base, 0, eph.y⟩ =
            CRYPT_OK := by
          simp only [dh_check_pubkey]
          rw [if_pos ⟨hky1, by omega⟩]
        rw [if_pos hchk]
      have hr2 := dh_shared_secret_checks_pass priv
        ⟨PK_PUBLIC, priv.prime, priv.base, 0, eph.y⟩
        (List.replicate DH_BUF_SIZE 0) DH_BUF_SIZE hpriv rfl rfl hky1 (by simp; omega)
      rw [if_neg (by dsimp only; rw [hsecEq]; exact Nat.not_lt.mpr hlen)] at hr2
      have hD := hash.hlen (natToBytes (pub.y ^ eph.x % eph.prime))
      have hin : in_.length ≤ hash.hashsize := Nat.not_lt.mp hh1
      have hclen : (List.zipWith (fun s i => s ^^^ i)
          (hash.digest (natToBytes (pub.y ^ eph.x % eph.prime))) in_).length =
          in_.length := by
        rw [List.length_zipWith]
        omega
      simp only [dh_decrypt_key]
      rw [if_neg (by simp [hpriv])]
      simp only [hreg, Option.elim_some, himp, exceptCase_ok, hr2, hsecEq]
      rw [if_neg (by simp)]
      have htk2 : (natToBytes (pub.y ^ eph.x % eph.prime) ++
          (List.replicate DH_BUF_SIZE 0).drop
            (natToBytes (pub.y ^ eph.x % eph.prime)).length).take
          (natToBytes (pub.y ^ eph.x % eph.prime)).length =
          natToBytes (pub.y ^ eph.x % eph.prime) := List.take_left _ _
      simp only [htk2]
      rw [if_neg (by rw [hclen]; omega)]
      rw [if_neg (by rw [hclen]; omega)]
      rw [zipWith_xor_cancel _ _ (by omega), hclen]

theorem dh_shared_secret_overflow_elim {priv pub : DhKey} {out : List Nat} {cap : Nat}
    (h : (dh_shared_secret priv pub out cap).1 = CRYPT_BUFFER_OVERFLOW) :
    cap < (natToBytes (pub.y ^ priv.x % priv.prime)).length ∧
    (dh_shared_secret priv pub out cap).2.2 =
      (natToBytes (pub.y ^ priv.x % priv.prime)).length := by
  simp only [dh_shared_secret] at h ⊢
  split_ifs at h ⊢ with h1 h2 h3 h4 h5
  exact ⟨h5, rfl⟩

/-- A concrete hash for witnesses: 4-byte constant digest, OID 42. -/
def testHash : Hash := ⟨4, fun _ => [7, 7, 7, 7], 42, fun _ => rfl⟩

/-- A concrete registry resolving OID 42 to `testHash`. -/
def testRegistry : Nat → Option Hash := fun n => if n = 42 then some testHash else none

/-- Claim C2 witness: a complete encrypt/decrypt run in the group p = 23,
g = 2 recovering the plaintext [1, 2] with output length 2. -/
theorem dh_encrypt_decrypt_roundtrip_w :
    dh_decrypt_key ⟨42, [8], [6, 5]⟩ [] 16 testRegistry ⟨1, 23, 2, 5, 9⟩ =
      (CRYPT_OK, [1, 2], 2) := by
  have h := dh_encrypt_decrypt_roundtrip [1, 2] [List.replicate 29 0 ++ [3]] testHash
    testRegistry ⟨1, 23, 2, 5, 9⟩ ⟨0, 23, 2, 0, 9⟩ ⟨42, [8], [6, 5]⟩ [] 16
    rfl rfl rfl rfl (by decide) rfl (by decide) (by decide)
  simpa using h

theorem dh_import_raw_public_shape {in_ : List Nat} {prime base : Nat} {k : DhKey}
    (h : dh_import_raw in_ PK_PUBLIC prime base = .ok k) :
    k = ⟨PK_PUBLIC, prime, base, 0, bytesToNat in_⟩ := by
  simp only [dh_import_raw] at h
  rw [if_neg (show ¬ (PK_PUBLIC = PK_PRIVATE) from by decide)] at h
  split_ifs at h with hchk
  exact (Except.ok.inj h).symm

theorem dh_import_raw_error_code {in_ : List Nat} {t prime base : Nat} {e : Code}
    (h : dh_import_raw in_ t prime base = .error e) : e = CRYPT_INVALID_ARG := by
  simp only [dh_import_raw] at h
  split_ifs at h with hchk hc2 <;> (injection h with he; exact he.symm)

/-- Big-endian 4-byte length word (spec §4.7). -/
def natTo4be (z : Nat) : List Nat :=
  [z / 16777216 % 256, z / 65536 % 256, z / 256 % 256, z % 256]

/-- Write `v` into `buf` at offset `pos`, leaving the rest untouched. -/
def listWriteAt (buf : List Nat) (pos : Nat) (v : List Nat) : List Nat :=
  buf.take pos ++ v ++ buf.drop (pos + v.length)

/-- Modelled from the spec: the OUTPUT_BIGNUM macro of the missing
dh_static.h writes a 4-byte big-endian length and the minimal unsigned
big-endian magnitude at the current offset, and on overflow reports
buffer-overflow with the bytes needed so far (§4.7, §7). -/
def output_bignum (num : Nat) (buf : List Nat) (pos outlen : Nat) :
    Except Nat (List Nat × Nat) :=
  let bs := natToBytes num
  if outlen < pos + 4 + bs.length then .error (pos + 4 + bs.length)
  else .ok (listWriteAt buf pos (natTo4be bs.length ++ bs), pos + 4 + bs.length)

/-- `dh_export` (src/src/pk/dh/dh.c, lines 213-256): check space for the
static header, check the kind, write the kind byte, the group bignums and
x or y, then store the header.  The initial capacity check (line 223)
returns buffer-overflow without touching the out-length parameter. -/
def dh_export (out : List Nat) (outlen : Nat) (type : Nat) (key : DhKey) :
    Code × List Nat × Nat :=
  if outlen < PACKET_SIZE + 2 then (CRYPT_BUFFER_OVERFLOW, out, outlen)
  else if type = PK_PRIVATE ∧ key.type ≠ PK_PRIVATE then
    (CRYPT_PK_NOT_PRIVATE, out, outlen)
  else
    let out1 := listWriteAt out PACKET_SIZE [type]
    match output_bignum key.prime out1 (PACKET_SIZE + 1) outlen with
    | .error need => (CRYPT_BUFFER_OVERFLOW, out1, need)
    | .ok (out2, pos2) =>
      match output_bignum key.base out2 pos2 outlen with
      | .error need => (CRYPT_BUFFER_OVERFLOW, out2, need)
      | .ok (out3, pos3) =>
        match output_bignum (if type = PK_PRIVATE then key.x else key.y) out3 pos3 outlen with
        | .error need => (CRYPT_BUFFER_OVERFLOW, out3, need)
        | .ok (out4, pos4) =>
          (CRYPT_OK, listWriteAt out4 0 (packet_header PACKET_SECT_DH PACKET_SUB_KEY), pos4)

/-- Claim C8 counterexample: exporting the key (p = 23, g = 2, y = 9) needs
20 bytes, but calling `dh_export` with a zero-capacity buffer returns
buffer-overflow leaving the out-length parameter at 0 instead of writing
the required length. -/
theorem dh_export_overflow_keeps_outlen :
    (dh_export (List.replicate 100 0) 100 PK_PUBLIC ⟨0, 23, 2, 0, 9⟩).1 = CRYPT_OK ∧
    (dh_export (List.replicate 100 0) 100 PK_PUBLIC ⟨0, 23, 2, 0, 9⟩).2.2 = 20 ∧
    dh_export [] 0 PK_PUBLIC ⟨0, 23, 2, 0, 9⟩ = (CRYPT_BUFFER_OVERFLOW, [], 0) :=
  ⟨by decide, by decide, by decide⟩

/-- Claim C8, amended: `dh_shared_secret` and `dh_decrypt_key` write the
required output length into the out-length parameter when they return
buffer-overflow for the caller's buffer (for `dh_decrypt_key` provided the
internal scratch buffer holds the shared secret, which DH_BUF_SIZE
guarantees for every supported group size); `dh_export`'s initial
header-capacity check returns buffer-overflow leaving the out-length
parameter unchanged. -/
theorem dh_overflow_reports_required_length
    (priv pub : DhKey) (out : List Nat) (cap : Nat)
    (blob : EncBlob) (registry : Nat → Option Hash) (key : DhKey)
    (out2 : List Nat) (cap2 : Nat)
    (hfit : (natToBytes (bytesToNat blob.y_pub ^ key.x % key.prime)).length ≤ DH_BUF_SIZE) :
    ((dh_shared_secret priv pub out cap).1 = CRYPT_BUFFER_OVERFLOW →
      (dh_shared_secret priv pub out cap).2.2 =
        (natToBytes (pub.y ^ priv.x % priv.prime)).length)
    ∧ ((dh_decrypt_key blob out2 cap2 registry key).1 = CRYPT_BUFFER_OVERFLOW →
      (dh_decrypt_key blob out2 cap2 registry key).2.2 = blob.c.length) := by
  constructor
  · intro h
    exact (dh_shared_secret_overflow_elim h).2
  · intro h
    simp only [dh_decrypt_key] at h ⊢
    by_cases h1 : key.type ≠ PK_PRIVATE
    · rw [if_pos h1] at h
      exact absurd h (by simp)
    · rw [if_neg h1] at h ⊢
      cases hr : registry blob.oid with
      | none =>
        rw [hr, Option.elim_none] at h
        exact absurd h (by simp)
      | some hsh =>
        rw [hr] at h
        simp only [Option.elim_some] at h ⊢
        cases him : dh_import_raw blob.y_pub PK_PUBLIC key.prime key.base with
        | error e =>
          rw [him, exceptCase_error] at h
          rw [dh_import_raw_error_code him] at h
          exact absurd h (by simp)
        | ok pubkey =>
          rw [him] at h
          rw [exceptCase_ok] at h ⊢
          by_cases hrc : (dh_shared_secret key pubkey
              (List.replicate DH_BUF_SIZE 0) DH_BUF_SIZE).1 ≠ CRYPT_OK
          · rw [if_pos hrc] at h
            have hov := dh_shared_secret_overflow_elim h
            have hshape := dh_import_raw_public_shape him
            subst hshape
            exact absurd hov.1 (by simpa using Nat.not_lt.mpr hfit)
          · rw [if_neg hrc] at h ⊢
            by_cases hz : (hsh.digest
                ((dh_shared_secret key pubkey (List.replicate DH_BUF_SIZE 0)
                  DH_BUF_SIZE).2.1.take
                  (dh_shared_secret key pubkey (List.replicate DH_BUF_SIZE 0)
                    DH_BUF_SIZE).2.2)).length < blob.c.length
            · rw [if_pos hz] at h
              exact absurd h (by simp)
            · rw [if_neg hz] at h ⊢
              by_cases hcap2 : cap2 < blob.c.length
              · rw [if_pos hcap2]
              · rw [if_neg hcap2] at h
                exact absurd h (by simp)

/-- Claim C8 amended-claim witness: a concrete overflowing
`dh_shared_secret` call reports the 1-byte requirement. -/
theorem dh_overflow_reports_required_length_w :
    (dh_shared_secret ⟨1, 23, 2, 5, 9⟩ ⟨0, 23, 2, 0, 8⟩ [] 0).2.2 =
      (natToBytes ((8 : Nat) ^ 5 % 23)).length :=
  (dh_overflow_reports_required_length ⟨1, 23, 2, 5, 9⟩ ⟨0, 23, 2, 0, 8⟩ [] 0
    ⟨0, [], []⟩ (fun _ => none) ⟨1, 23, 2, 5, 9⟩ [] 0 (by decide)).1 (by decide)

end LTCDH
